import Mathlib

/-!
# Verification of the BusTub storage-runtime core

Shallow embedding of three components of the repository:

* the LRU-K replacer (`src/buffer/lru_k_replacer.cpp`, provided as
  `src/unnamed/part_000`),
* the copy-on-write trie (`src/primer/trie.cpp`, second implementation),
* the buffer pool manager (`src/buffer/buffer_pool_manager.cpp`).

C++ shared-pointer identity of replacer nodes is embedded as the node's
frame id: the node store maps frame ids to node records, and the two
eviction lists hold frame ids.  Machine integers `frame_id_t` and
`page_id_t` (`int32_t`) are embedded as `Int`; timestamps and sizes
(`size_t`) as `Nat`.  Aborting assertions (`BUSTUB_ASSERT`) and thrown
exceptions are embedded with `Except`/`Option` results.
-/

namespace BusTub

/-! ## Association lists

`std::unordered_map` / `std::map` are embedded as association lists with
the usual find / insert-or-assign / erase operations. -/

def alFind {κ α : Type} [DecidableEq κ] : List (κ × α) → κ → Option α
  | [], _ => none
  | p :: rest, key => if p.1 = key then some p.2 else alFind rest key

def alSet {κ α : Type} [DecidableEq κ] : List (κ × α) → κ → α → List (κ × α)
  | [], key, v => [(key, v)]
  | p :: rest, key, v => if p.1 = key then (key, v) :: rest else p :: alSet rest key v

def alErase {κ α : Type} [DecidableEq κ] : List (κ × α) → κ → List (κ × α)
  | [], _ => []
  | p :: rest, key => if p.1 = key then alErase rest key else p :: alErase rest key

/-! ## LRU-K replacer

Embedding of `lru_k_replacer.cpp`.  The node accessors are declared in
`lru_k_replacer.h`, which is not part of the sources; they are modelled
from the spec: `history` holds the last K access timestamps oldest
first, `access_count` saturates at K (so it equals the history length),
`get_least_recent_timestamp` reads the oldest-in-history entry, and
`evictable` defaults to `false` on first record. -/

structure LRUKNode where
  fid : Int
  k : Nat
  history : List Nat
  evictable : Bool
deriving Repr, DecidableEq

/-- `LRUKNode::add_timestamp`: push the timestamp at the back of the
history and drop the front entry once the length exceeds `k_`. -/
def LRUKNode.add_timestamp (n : LRUKNode) (ts : Nat) : LRUKNode :=
  let h := n.history ++ [ts]
  { n with history := if n.k < h.length then h.tail else h }

/-- Modelled from the spec: `history.length = min(access_count, K)`, and
the saturated count is what the `.cpp` compares against `k_`. -/
def LRUKNode.get_access_count (n : LRUKNode) : Nat := n.history.length

/-- Modelled from the spec: the timestamp of the oldest-in-history entry. -/
def LRUKNode.get_least_recent_timestamp (n : LRUKNode) : Nat := n.history.headD 0

def LRUKNode.is_evictable (n : LRUKNode) : Bool := n.evictable

def LRUKNode.get_fid (n : LRUKNode) : Int := n.fid

/-- Replacer state.  `node_store` is keyed by frame id; `less_k_list`
and `more_k_list` hold node identities (frame ids), the head of a list
being its front (`push_front` end). -/
structure RepState where
  k : Nat
  replacer_size : Nat
  current_timestamp : Nat
  curr_size : Nat
  node_store : List (Int × LRUKNode)
  less_k_list : List Int
  more_k_list : List Int
deriving Repr, DecidableEq

def RepState.init (num_frames k : Nat) : RepState :=
  { k := k, replacer_size := num_frames, current_timestamp := 0, curr_size := 0,
    node_store := [], less_k_list := [], more_k_list := [] }

inductive RepError where
  | assertFail
  | notEvictable
deriving Repr, DecidableEq

/-- `is_evictable()` of the node a list entry points at. -/
def evictablePred (store : List (Int × LRUKNode)) (fid : Int) : Bool :=
  ((alFind store fid).map LRUKNode.is_evictable).getD false

/-- The `find_if(rbegin, rend, is_evictable)` scan of a list: searching
the reversed list front-to-back visits the C++ list back-to-front. -/
def findEvictable (store : List (Int × LRUKNode)) (l : List Int) : Option Int :=
  l.reverse.find? (evictablePred store)

/-- `LRUKReplacer::Evict`. -/
def RepState.Evict (s : RepState) : Option (Int × RepState) :=
  if s.curr_size = 0 then none
  else
    match findEvictable s.node_store s.less_k_list with
    | some fid =>
      some (fid, { s with less_k_list := s.less_k_list.filter (fun f => !(f = fid : Bool)),
                          node_store := alErase s.node_store fid,
                          curr_size := s.curr_size - 1 })
    | none =>
      match findEvictable s.node_store s.more_k_list with
      | some fid =>
        some (fid, { s with more_k_list := s.more_k_list.filter (fun f => !(f = fid : Bool)),
                            node_store := alErase s.node_store fid,
                            curr_size := s.curr_size - 1 })
      | none => none

/-- `LRUKReplacer::more_k_list_push_node`: insert before the first node
whose oldest-in-history timestamp is older (smaller) than the inserted
node's. -/
def moreKPush (store : List (Int × LRUKNode)) (node : LRUKNode) : List Int → List Int
  | [] => [node.fid]
  | f :: rest =>
    if ((alFind store f).map LRUKNode.get_least_recent_timestamp).getD 0
        < node.get_least_recent_timestamp
    then node.fid :: f :: rest
    else f :: moreKPush store node rest

/-- `LRUKReplacer::RecordAccess`.  `BUSTUB_ASSERT(frame_id <
static_cast<frame_id_t>(replacer_size_))` aborts (error) exactly when
the signed comparison fails; note the source performs no lower-bound
check. -/
def RepState.RecordAccess (s : RepState) (frame_id : Int) : Except RepError RepState :=
  if ¬ frame_id < (s.replacer_size : Int) then .error .assertFail
  else
    match alFind s.node_store frame_id with
    | none =>
      .ok { s with current_timestamp := s.current_timestamp + 1,
                   node_store := alSet s.node_store frame_id
                     (LRUKNode.add_timestamp
                       { fid := frame_id, k := s.k, history := [], evictable := false }
                       (s.current_timestamp + 1)),
                   curr_size := s.curr_size + 1,
                   less_k_list := frame_id :: s.less_k_list }
    | some node =>
      if node.get_access_count < s.k then
        if (node.add_timestamp (s.current_timestamp + 1)).get_access_count = s.k then
          .ok { s with current_timestamp := s.current_timestamp + 1,
                       node_store := alSet s.node_store frame_id
                         (node.add_timestamp (s.current_timestamp + 1)),
                       more_k_list :=
                         moreKPush
                           (alSet s.node_store frame_id
                             (node.add_timestamp (s.current_timestamp + 1)))
                           (node.add_timestamp (s.current_timestamp + 1)) s.more_k_list,
                       less_k_list :=
                         s.less_k_list.filter (fun f => !(f = frame_id : Bool)) }
        else
          .ok { s with current_timestamp := s.current_timestamp + 1,
                       node_store := alSet s.node_store frame_id
                         (node.add_timestamp (s.current_timestamp + 1)),
                       less_k_list :=
                         frame_id :: s.less_k_list.filter (fun f => !(f = frame_id : Bool)) }
      else
        .ok { s with current_timestamp := s.current_timestamp + 1,
                     node_store := alSet s.node_store frame_id
                       (node.add_timestamp (s.current_timestamp + 1)),
                     more_k_list :=
                       moreKPush
                         (alSet s.node_store frame_id
                           (node.add_timestamp (s.current_timestamp + 1)))
                         (node.add_timestamp (s.current_timestamp + 1))
                         (s.more_k_list.filter (fun f => !(f = frame_id : Bool))) }

/-- `LRUKReplacer::SetEvictable`. -/
def RepState.SetEvictable (s : RepState) (frame_id : Int) (set_evictable : Bool) :
    Except RepError RepState :=
  if ¬ frame_id < (s.replacer_size : Int) then .error .assertFail
  else
    match alFind s.node_store frame_id with
    | none => .ok s
    | some node =>
      if node.is_evictable = set_evictable then .ok s
      else
        .ok { s with node_store := alSet s.node_store frame_id { node with evictable := set_evictable },
                     curr_size := if set_evictable then s.curr_size + 1 else s.curr_size - 1 }

/-- `LRUKReplacer::Remove`; `throw Exception("The frame is not
evictable")` is the `notEvictable` error. -/
def RepState.Remove (s : RepState) (frame_id : Int) : Except RepError RepState :=
  if ¬ frame_id < (s.replacer_size : Int) then .error .assertFail
  else
    match alFind s.node_store frame_id with
    | none => .ok s
    | some node =>
      if ¬ node.is_evictable then .error .notEvictable
      else
        if node.get_access_count < s.k then
          .ok { s with node_store := alErase s.node_store frame_id,
                       less_k_list := s.less_k_list.filter (fun f => !(f = frame_id : Bool)),
                       curr_size := s.curr_size - 1 }
        else
          .ok { s with node_store := alErase s.node_store frame_id,
                       more_k_list := s.more_k_list.filter (fun f => !(f = frame_id : Bool)),
                       curr_size := s.curr_size - 1 }

/-- `LRUKReplacer::Size`. -/
def RepState.Size (s : RepState) : Nat := s.curr_size

/-- One public replacer operation, for quantifying over operation
sequences. -/
inductive RepOp where
  | record (fid : Int)
  | setEvictable (fid : Int) (b : Bool)
  | evict
  | remove (fid : Int)
deriving Repr, DecidableEq

/-- Apply one operation; an aborted operation leaves the state as it
was (the invariant theorems quantify over all reachable states). -/
def applyRepOp (s : RepState) : RepOp → RepState
  | .record fid => ((s.RecordAccess fid).toOption).getD s
  | .setEvictable fid b => ((s.SetEvictable fid b).toOption).getD s
  | .evict =>
    match s.Evict with
    | some (_, s2) => s2
    | none => s
  | .remove fid => ((s.Remove fid).toOption).getD s

def runRepOps (s : RepState) (ops : List RepOp) : RepState :=
  ops.foldl applyRepOp s

/-- Count of tracked nodes whose `evictable` flag is true. -/
def evCount (store : List (Int × LRUKNode)) : Nat :=
  (store.filter (fun p => p.2.evictable)).length

/-! ## Copy-on-write trie

Embedding of the second (complete) implementation in
`src/primer/trie.cpp`.  The node type is declared in `primer/trie.h`,
which is not among the sources; modelled from the spec: an immutable
record with a map from character to child plus an optional value,
present iff the node is a value node (`is_value_node_` is true exactly
for `TrieNodeWithValue`, whose value pointer is always set).  The
per-type `dynamic_cast` of `Get<T>` is embedded with a closed universe
of value payloads and a tag check. -/

inductive TrieVal where
  | u32 (n : Nat)
  | u64 (n : Nat)
  | str (s : String)
  | intPtr (n : Nat)
deriving Repr, DecidableEq

inductive TrieTag where
  | u32
  | u64
  | str
  | intPtr
deriving Repr, DecidableEq

def TrieVal.tag : TrieVal → TrieTag
  | .u32 _ => .u32
  | .u64 _ => .u64
  | .str _ => .str
  | .intPtr _ => .intPtr

inductive TrieNode where
  | mk (children : List (Char × TrieNode)) (value : Option TrieVal)

def TrieNode.children : TrieNode → List (Char × TrieNode)
  | .mk cs _ => cs

def TrieNode.value : TrieNode → Option TrieVal
  | .mk _ v => v

/-- `is_value_node_`. -/
def TrieNode.is_value_node (n : TrieNode) : Bool := n.value.isSome

def emptyTrieNode : TrieNode := .mk [] none

def findChild (n : TrieNode) (c : Char) : Option TrieNode :=
  alFind n.children c

def setChild (n : TrieNode) (c : Char) (child : TrieNode) : TrieNode :=
  .mk (alSet n.children c child) n.value

def eraseChild (n : TrieNode) (c : Char) : TrieNode :=
  .mk (alErase n.children c) n.value

/-- A trie value; the empty trie has an absent root. -/
structure Trie where
  root : Option TrieNode

/-- The walk shared by `Get`: follow one child edge per key character. -/
def getNode : TrieNode → List Char → Option TrieNode
  | n, [] => some n
  | n, c :: rest =>
    match findChild n c with
    | none => none
    | some child => getNode child rest

/-- `Trie::Get<T>`: walk to the key's node, then the `dynamic_cast`
succeeds only on a value node whose payload type matches. -/
def Trie.get (t : Trie) (tag : TrieTag) (key : List Char) : Option TrieVal :=
  match t.root with
  | none => none
  | some r =>
    match getNode r key with
    | none => none
    | some n =>
      match n.value with
      | none => none
      | some v => if v.tag = tag then some v else none

/-- The spine rebuild of `Trie::Put<T>`, recursively: at the terminal
position the node is replaced by a value node carrying the new value
and the old children (a missing terminal gets a childless value node);
a missing interior child becomes a fresh plain node. -/
def putNode : TrieNode → List Char → TrieVal → TrieNode
  | n, [], v => .mk n.children (some v)
  | n, c :: rest, v => setChild n c (putNode ((findChild n c).getD emptyTrieNode) rest v)

/-- `Trie::Put<T>`: clone (or create) the root and rebuild the spine. -/
def Trie.put (t : Trie) (key : List Char) (v : TrieVal) : Trie :=
  ⟨some (putNode ((t.root).getD emptyTrieNode) key v)⟩

/-- The downward walk plus stack unwind of `Trie::Remove`, recursively:
`none` means the key (or its value node) was not found and the original
trie is returned; otherwise the returned node is the rewritten spine
node, where a child that became both childless and valueless is
erased. -/
def removeAux : TrieNode → Char → List Char → Option TrieNode
  | n, c, rest =>
    match findChild n c with
    | none => none
    | some child =>
      match rest with
      | [] =>
        if child.is_value_node then
          let newChild : TrieNode := .mk child.children none
          some (if newChild.children.isEmpty && !newChild.is_value_node
                then eraseChild n c else setChild n c newChild)
        else none
      | c2 :: rest2 =>
        match removeAux child c2 rest2 with
        | none => none
        | some newChild =>
          some (if newChild.children.isEmpty && !newChild.is_value_node
                then eraseChild n c else setChild n c newChild)

/-- `Trie::Remove`.  Note the final root check of the source tests only
`n_root->children_.empty()`, yielding the empty trie even when the root
still carries a value under the empty key. -/
def Trie.remove (t : Trie) (key : List Char) : Trie :=
  match t.root with
  | none => t
  | some r =>
    match key with
    | [] =>
      if r.is_value_node then
        if r.children.isEmpty then ⟨none⟩
        else ⟨some (.mk r.children none)⟩
      else t
    | c :: rest =>
      match removeAux r c rest with
      | none => t
      | some newRoot => if newRoot.children.isEmpty then ⟨none⟩ else ⟨some newRoot⟩

/-- Walk observer at the trie level, for stating put's effect on the
node at a key. -/
def Trie.nodeAt (t : Trie) (key : List Char) : Option TrieNode :=
  (t.root).bind (fun r => getNode r key)

/-- The children of the node at `key`, or an empty map when the walk
fails (put fills missing spine positions with childless nodes). -/
def Trie.childrenAt (t : Trie) (key : List Char) : List (Char × TrieNode) :=
  ((t.nodeAt key).map TrieNode.children).getD []

/-! ## Buffer pool manager

Embedding of `buffer_pool_manager.cpp`.  Page bytes are abstracted to a
single `Nat` (zeroed by `ResetMemory`).  The `Page` accessors
(`Pin`/`Unpin`/`MarkDirty`/`ResetMetadata`/`ResetMemory` and getters)
live in `storage/page/page.h`, not among the sources; modelled from the
spec: pin increments/decrements the count, `MarkDirty` assigns the
flag, the resets clear metadata (invalid page id, zero pin count, clean)
and zero the memory.  The disk manager is external; its calls are
recorded in an event log, and `write_page` also updates a modelled disk
image.  `DeallocatePage` is modelled from the spec as the deallocate
notification.  An aborting replacer assertion surfaces as `none`. -/

inductive DiskOp where
  | write (pid : Int) (data : Nat)
  | read (pid : Int)
  | dealloc (pid : Int)
deriving Repr, DecidableEq

structure Page where
  page_id : Int
  pin_count : Nat
  is_dirty : Bool
  data : Nat
deriving Repr, DecidableEq

/-- A frame after `ResetMetadata(); ResetMemory()` (also the state of a
default-constructed page): `INVALID_PAGE_ID = -1`, unpinned, clean,
zeroed bytes. -/
def Page.reset : Page := { page_id := -1, pin_count := 0, is_dirty := false, data := 0 }

structure BPM where
  pool_size : Nat
  pages : Int → Page
  replacer : RepState
  free_list : List Int
  page_table : List (Int × Int)
  next_page_id : Int
  disk : Int → Nat
  log : List DiskOp

/-- `BufferPoolManager` constructor: default pages, the LRU-K replacer,
every frame id on the free list, a given initial disk image. -/
def BPM.init (pool_size k : Nat) (disk0 : Int → Nat) : BPM :=
  { pool_size := pool_size, pages := fun _ => Page.reset,
    replacer := RepState.init pool_size k,
    free_list := (List.range pool_size).map Int.ofNat,
    page_table := [], next_page_id := 0, disk := disk0, log := [] }

def setFrame (pages : Int → Page) (fid : Int) (p : Page) : Int → Page :=
  fun f => if f = fid then p else pages f

/-- `disk_manager_->WritePage`. -/
def BPM.writePage (s : BPM) (pid : Int) (d : Nat) : BPM :=
  { s with disk := fun p => if p = pid then d else s.disk p,
           log := s.log ++ [.write pid d] }

/-- `disk_manager_->ReadPage(pid, frame->GetData())`. -/
def BPM.readPageInto (s : BPM) (pid fid : Int) : BPM :=
  { s with pages := setFrame s.pages fid ({ s.pages fid with data := s.disk pid }),
           log := s.log ++ [.read pid] }

/-- Tail of `getNewFrame` after a frame id was obtained: reset the
frame, allocate the page id when `is_new` (`AllocatePage` is the
post-increment of the monotonic counter), set it, record the access,
pin, mark non-evictable, install the page-table mapping. -/
def BPM.finishNewFrame (s : BPM) (fid : Int) (pid : Int) (is_new : Bool) :
    Option (Option (Int × Int) × BPM) :=
  let s1 := { s with pages := setFrame s.pages fid Page.reset }
  let pid2 := if is_new then s1.next_page_id else pid
  let s2 := if is_new then { s1 with next_page_id := s1.next_page_id + 1 } else s1
  let s3 := { s2 with pages := setFrame s2.pages fid ({ Page.reset with page_id := pid2 }) }
  match s3.replacer.RecordAccess fid with
  | .error _ => none
  | .ok rep1 =>
    let s4 := { s3 with replacer := rep1 }
    let frame5 := { s4.pages fid with pin_count := (s4.pages fid).pin_count + 1 }
    let s5 := { s4 with pages := setFrame s4.pages fid frame5 }
    match s5.replacer.SetEvictable fid false with
    | .error _ => none
    | .ok rep2 =>
      let s6 := { s5 with replacer := rep2 }
      let s7 := { s6 with page_table := alSet s6.page_table pid2 fid }
      some (some (pid2, fid), s7)

/-- `BufferPoolManager::getNewFrame`: prefer the free list; otherwise
evict, writing the victim back first when dirty and erasing its
page-table mapping; otherwise report no frame (`nullptr`). -/
def BPM.getNewFrame (s : BPM) (pid : Int) (is_new : Bool) :
    Option (Option (Int × Int) × BPM) :=
  match s.free_list with
  | fid :: rest => ({ s with free_list := rest } : BPM).finishNewFrame fid pid is_new
  | [] =>
    match s.replacer.Evict with
    | some (fid, rep1) =>
      let s1 := { s with replacer := rep1 }
      let old_pid := (s1.pages fid).page_id
      let s2 := if (s1.pages fid).is_dirty then s1.writePage old_pid ((s1.pages fid).data)
                else s1
      let s3 := { s2 with page_table := alErase s2.page_table old_pid }
      s3.finishNewFrame fid pid is_new
    | none => some (none, s)

/-- `BufferPoolManager::NewPage` (the out-parameter's input value is
unused since the page id is freshly allocated). -/
def BPM.NewPage (s : BPM) : Option (Option (Int × Int) × BPM) :=
  s.getNewFrame 0 true

/-- `BufferPoolManager::FetchPage`. -/
def BPM.FetchPage (s : BPM) (pid : Int) : Option (Option Int × BPM) :=
  match alFind s.page_table pid with
  | none =>
    match s.getNewFrame pid false with
    | none => none
    | some (none, s1) => some (none, s1)
    | some (some (pid2, fid), s1) => some (some fid, s1.readPageInto pid2 fid)
  | some fid =>
    let frame1 := { s.pages fid with pin_count := (s.pages fid).pin_count + 1 }
    let s1 := { s with pages := setFrame s.pages fid frame1 }
    match s1.replacer.SetEvictable fid false with
    | .error _ => none
    | .ok rep1 =>
      match rep1.RecordAccess fid with
      | .error _ => none
      | .ok rep2 => some (some fid, { s1 with replacer := rep2 })

/-- `BufferPoolManager::UnpinPage`. -/
def BPM.UnpinPage (s : BPM) (pid : Int) (is_dirty : Bool) : Option (Bool × BPM) :=
  match alFind s.page_table pid with
  | none => some (false, s)
  | some fid =>
    if (s.pages fid).pin_count = 0 then some (false, s)
    else
      let frame1 := { s.pages fid with is_dirty := is_dirty || (s.pages fid).is_dirty }
      let frame2 := { frame1 with pin_count := frame1.pin_count - 1 }
      let s1 := { s with pages := setFrame s.pages fid frame2 }
      if frame2.pin_count = 0 then
        match s1.replacer.SetEvictable fid true with
        | .error _ => none
        | .ok rep1 => some (true, { s1 with replacer := rep1 })
      else some (true, s1)

/-- `BufferPoolManager::DeletePage`: vacuous success when not resident,
failure when pinned, otherwise remove from replacer and page table,
reset the frame, return it to the free list and notify the disk
manager's deallocation. -/
def BPM.DeletePage (s : BPM) (pid : Int) : Option (Bool × BPM) :=
  match alFind s.page_table pid with
  | none => some (true, s)
  | some fid =>
    if 0 < (s.pages fid).pin_count then some (false, s)
    else
      match s.replacer.Remove fid with
      | .error _ => none
      | .ok rep1 =>
        some (true, { s with replacer := rep1,
                             page_table := alErase s.page_table pid,
                             pages := setFrame s.pages fid Page.reset,
                             free_list := s.free_list ++ [fid],
                             log := s.log ++ [.dealloc pid] })

/-- The operation sequence of C7: frames 0,1,2,3 (A,B,C,D) each
accessed twice in order A B C D A B C D (timestamps 1..8), then all
marked evictable. -/
def opsC7 : List RepOp :=
  [.record 0, .record 1, .record 2, .record 3,
   .record 0, .record 1, .record 2, .record 3,
   .setEvictable 0 true, .setEvictable 1 true,
   .setEvictable 2 true, .setEvictable 3 true]

def evictFid (s : RepState) : Option Int := (s.Evict).map Prod.fst

def evictRest (s : RepState) : RepState := ((s.Evict).map Prod.snd).getD s

/-! ## Claims about the trie: C2, C3 -/

/-- The failing input of C2: a value bound at the empty key at the
root, and a value at key "a". -/
def trieC2 : Trie := ((⟨none⟩ : Trie).put [] (.u32 7)).put ['a'] (.u32 9)

/-! ## Concrete witness states for the buffer pool manager claims -/

instance {e a : Type} [DecidableEq e] [DecidableEq a] : DecidableEq (Except e a) :=
  fun x y =>
    match x, y with
    | .error u, .error v =>
      if h : u = v then isTrue (by rw [h]) else isFalse (by simp [h])
    | .error _, .ok _ => isFalse (by simp)
    | .ok _, .error _ => isFalse (by simp)
    | .ok u, .ok v =>
      if h : u = v then isTrue (by rw [h]) else isFalse (by simp [h])

/-- A one-frame replacer state tracking frame 0, evictable, one access. -/
def repW : RepState :=
  { k := 2, replacer_size := 1, current_timestamp := 1, curr_size := 2,
    node_store := [(0, { fid := 0, k := 2, history := [1], evictable := true })],
    less_k_list := [0], more_k_list := [] }

/-- `repW` after its node has been evicted or removed. -/
def repW1 : RepState :=
  { k := 2, replacer_size := 1, current_timestamp := 1, curr_size := 1,
    node_store := [], less_k_list := [], more_k_list := [] }

/-- A full one-frame pool: page 7 resident in frame 0, unpinned, dirty. -/
def bpmW : BPM :=
  { pool_size := 1,
    pages := fun _ => { page_id := 7, pin_count := 0, is_dirty := true, data := 42 },
    replacer := repW, free_list := [], page_table := [(7, 0)],
    next_page_id := 8, disk := fun _ => 0, log := [] }

/-- The replacer of the unpin witness: frame 0 tracked, not evictable. -/
def repW8 : RepState :=
  { k := 2, replacer_size := 1, current_timestamp := 1, curr_size := 1,
    node_store := [(0, { fid := 0, k := 2, history := [1], evictable := false })],
    less_k_list := [0], more_k_list := [] }

/-- A one-frame pool with page 5 pinned once in frame 0, clean. -/
def bpmW8 : BPM :=
  { pool_size := 1,
    pages := fun _ => { page_id := 5, pin_count := 1, is_dirty := false, data := 3 },
    replacer := repW8, free_list := [], page_table := [(5, 0)],
    next_page_id := 6, disk := fun _ => 0, log := [] }

/-- A zero-frame pool: the free list is empty and the replacer has
nothing to evict. -/
def bpmW9 : BPM := BPM.init 0 2 (fun _ => 0)

/-- Like `bpmW` but with page 5 resident for the delete witness. -/
def bpmW10 : BPM :=
  { pool_size := 1,
    pages := fun _ => { page_id := 5, pin_count := 0, is_dirty := true, data := 9 },
    replacer := repW, free_list := [], page_table := [(5, 0)],
    next_page_id := 6, disk := fun _ => 0, log := [] }

/-- Well-formedness of a replacer state, as maintained by the source:
keys are unique, every tracked node has at least one recorded access
and carries the replacer's K, `curr_size_` dominates tracked plus
evictable counts (it is incremented once at creation and once per
evictable transition), and — when K is at least 2 — the sub-K list
holds exactly the tracked nodes with fewer than K recorded accesses. -/
structure RepWF (s : RepState) : Prop where
  k_pos : 1 ≤ s.k
  nodup : (s.node_store.map Prod.fst).Nodup
  hist_len : ∀ fid node, alFind s.node_store fid = some node → 1 ≤ node.history.length
  node_k : ∀ fid node, alFind s.node_store fid = some node → node.k = s.k
  size_le : s.node_store.length + evCount s.node_store ≤ s.curr_size
  less_sub : 2 ≤ s.k → ∀ fid, fid ∈ s.less_k_list →
    ∃ node, alFind s.node_store fid = some node ∧ node.history.length < s.k
  sub_less : 2 ≤ s.k → ∀ fid node, alFind s.node_store fid = some node →
    node.history.length < s.k → fid ∈ s.less_k_list

/-- Witness sequence for C6: one access to frame 0 with K=2, then mark
it evictable; the tracked node is evictable with one recorded access. -/
def opsC6 : List RepOp := [.record 0, .setEvictable 0 true]

/-! ## Theorems -/

theorem alFind_alSet_self {κ α : Type} [DecidableEq κ] (m : List (κ × α)) (key : κ) (v : α) :
    alFind (alSet m key v) key = some v := by
  induction m with
  | nil => simp [alSet, alFind]
  | cons p rest ih =>
    by_cases h : p.1 = key <;> simp [alSet, alFind, h, ih]

theorem alFind_alSet_ne {κ α : Type} [DecidableEq κ] (m : List (κ × α)) (key q : κ) (v : α)
    (h : q ≠ key) : alFind (alSet m key v) q = alFind m q := by
  have hkq : ¬ key = q := fun h2 => h h2.symm
  induction m with
  | nil => simp [alSet, alFind, hkq]
  | cons p rest ih =>
    by_cases hp : p.1 = key
    · simp [alSet, alFind, hp, hkq]
    · simp [alSet, alFind, hp, ih]

theorem alFind_alErase_self {κ α : Type} [DecidableEq κ] (m : List (κ × α)) (key : κ) :
    alFind (alErase m key) key = none := by
  induction m with
  | nil => simp [alErase, alFind]
  | cons p rest ih =>
    by_cases h : p.1 = key <;> simp [alErase, alFind, h, ih]

theorem alFind_alErase_ne {κ α : Type} [DecidableEq κ] (m : List (κ × α)) (key q : κ)
    (h : q ≠ key) : alFind (alErase m key) q = alFind m q := by
  induction m with
  | nil => simp [alErase, alFind]
  | cons p rest ih =>
    have hkq : ¬ key = q := fun h2 => h h2.symm
    by_cases hp : p.1 = key
    · have hpq : ¬ p.1 = q := by rw [hp]; exact hkq
      simp [alErase, alFind, hp, hpq, hkq, ih]
    · by_cases hq : p.1 = q <;> simp [alErase, alFind, hp, hq, h, ih]

/-! ## Claims about the LRU-K replacer: C1, C5, C7 -/

/-- C1: the claim says `Size()` counts exactly the tracked nodes whose
evictable flag is true, and in particular a freshly recorded node (flag
defaults to false) does not count.  The source instead increments
`curr_size_` when `RecordAccess` creates the (non-evictable) node:
after a single `RecordAccess(0)` on a fresh replacer, `Size()` is 1
while no tracked node is evictable. -/
theorem c1_fresh_record_size_bug :
    (((RepState.init 2 2).RecordAccess 0).toOption.getD (RepState.init 2 2)).Size = 1 ∧
    evCount ((((RepState.init 2 2).RecordAccess 0).toOption.getD
      (RepState.init 2 2)).node_store) = 0 ∧
    (∀ p, p ∈ ((((RepState.init 2 2).RecordAccess 0).toOption.getD
      (RepState.init 2 2)).node_store) → p.2.evictable = false) := by
  decide

/-- C5 counterexample: the claim says every frame id outside
`[0, num_frames)` — negative ids included — triggers the precondition
failure and leaves the state unmodified.  The assertion only checks the
upper bound on the signed id, so `RecordAccess(-1)` succeeds and
creates a node for frame `-1`. -/
theorem c5_negative_id_counterexample :
    ((RepState.init 1 1).RecordAccess (-1)).isOk = true ∧
    alFind ((((RepState.init 1 1).RecordAccess (-1)).toOption.getD
      (RepState.init 1 1)).node_store) (-1) =
      some { fid := -1, k := 1, history := [1], evictable := false } := by
  decide

/-- C5 amended: for `record_access`, `set_evictable` and `remove` the
precondition failure fires exactly when `num_frames ≤ frame_id`; every
frame id below `num_frames`, negative ids included, passes the check
(an unknown in-range id is silently tolerated per operation). -/
theorem c5_assert_checks_upper_bound_only :
    ∀ (s : RepState) (fid : Int) (b : Bool),
      (s.RecordAccess fid = .error .assertFail ↔ (s.replacer_size : Int) ≤ fid) ∧
      (s.SetEvictable fid b = .error .assertFail ↔ (s.replacer_size : Int) ≤ fid) ∧
      (s.Remove fid = .error .assertFail ↔ (s.replacer_size : Int) ≤ fid) := by
  intro s fid b
  by_cases h : fid < (s.replacer_size : Int)
  · have hnle : ¬ (s.replacer_size : Int) ≤ fid := Int.not_le.mpr h
    refine ⟨⟨fun hEq => ?_, fun hle => absurd h (Int.not_lt.mpr hle)⟩,
            ⟨fun hEq => ?_, fun hle => absurd h (Int.not_lt.mpr hle)⟩,
            ⟨fun hEq => ?_, fun hle => absurd h (Int.not_lt.mpr hle)⟩⟩
    · rw [RepState.RecordAccess, if_neg (by simpa using h)] at hEq
      cases h2 : alFind s.node_store fid <;> simp only [h2] at hEq <;>
        (try split at hEq) <;> (try split at hEq)
      all_goals simp_all
    · rw [RepState.SetEvictable, if_neg (by simpa using h)] at hEq
      cases h2 : alFind s.node_store fid <;> simp only [h2] at hEq <;>
        try split at hEq
      all_goals simp_all
    · rw [RepState.Remove, if_neg (by simpa using h)] at hEq
      cases h2 : alFind s.node_store fid <;> simp only [h2] at hEq <;>
        (try split at hEq) <;> (try split at hEq)
      all_goals simp_all
  · have hle : (s.replacer_size : Int) ≤ fid := Int.not_lt.mp h
    refine ⟨?_, ?_, ?_⟩ <;>
      simp [RepState.RecordAccess, RepState.SetEvictable, RepState.Remove, h, hle]

/-- C7: with K=2 and frames A=0, B=1, C=2, D=3 accessed as
A B C D A B C D (timestamps 1..8) and all marked evictable, the full-K
list is kept sorted by oldest-in-history timestamp (front = newest) and
four successive evictions return A, B, C, D. -/
theorem c7_eviction_order :
    (runRepOps (RepState.init 4 2) opsC7).more_k_list = [3, 2, 1, 0] ∧
    evictFid (runRepOps (RepState.init 4 2) opsC7) = some 0 ∧
    evictFid (evictRest (runRepOps (RepState.init 4 2) opsC7)) = some 1 ∧
    evictFid (evictRest (evictRest (runRepOps (RepState.init 4 2) opsC7))) = some 2 ∧
    evictFid (evictRest (evictRest (evictRest
      (runRepOps (RepState.init 4 2) opsC7)))) = some 3 := by
  decide

/-- C2: the claim says `remove(k)` preserves the value at every other
key, including a value stored at the root under the empty key.  On
`trieC2`, removing "a" empties the cloned root's child map, and the
source then returns the empty trie although the root still carries the
value 7 under the empty key: `get ""` on the result is `none`. -/
theorem c2_remove_drops_root_value :
    trieC2.get .u32 [] = some (.u32 7) ∧
    trieC2.get .u32 ['a'] = some (.u32 9) ∧
    (trieC2.remove ['a']).root.isNone = true ∧
    (trieC2.remove ['a']).get .u32 [] = none := by
  decide

theorem findChild_setChild_self (n : TrieNode) (c : Char) (x : TrieNode) :
    findChild (setChild n c x) c = some x := by
  simp [findChild, setChild, TrieNode.children, alFind_alSet_self]

theorem emptyWalk_children (key : List Char) :
    ((getNode emptyTrieNode key).map TrieNode.children).getD [] = [] := by
  cases key with
  | nil => simp [getNode, emptyTrieNode, TrieNode.children]
  | cons c rest => simp [getNode, emptyTrieNode, findChild, TrieNode.children, alFind]

/-- Walking the key of a `putNode` spine reaches a value node carrying
the new value over the children the walk of the original node reaches
(an empty map where the original walk fails). -/
theorem getNode_putNode (key : List Char) :
    ∀ (n : TrieNode) (v : TrieVal),
      getNode (putNode n key v) key =
        some (.mk (((getNode n key).map TrieNode.children).getD []) (some v)) := by
  induction key with
  | nil => intro n v; simp [putNode, getNode, TrieNode.children]
  | cons c rest ih =>
    intro n v
    have h1 : getNode (putNode n (c :: rest) v) (c :: rest)
        = getNode (putNode ((findChild n c).getD emptyTrieNode) rest v) rest := by
      simp [putNode, getNode, findChild_setChild_self]
    rw [h1, ih]
    cases h : findChild n c with
    | none => simp [getNode, h, emptyWalk_children]
    | some child => simp [getNode, h]

/-- C3: put/get round-trip.  For every trie, every key (the empty key
included) and every supported value, `put` then `get` at the matching
type returns the value; `put` is a total function, and the node it
installs at the key carries the new value over the children the key had
before (an empty child map when the key was absent), i.e. overwrite
preserves children. -/
theorem c3_put_get_roundtrip :
    ∀ (t : Trie) (key : List Char) (v : TrieVal),
      (t.put key v).get v.tag key = some v ∧
      (t.put key v).nodeAt key = some (.mk (t.childrenAt key) (some v)) := by
  intro t key v
  have h := getNode_putNode key ((t.root).getD emptyTrieNode) v
  constructor
  · simp [Trie.put, Trie.get, h, TrieNode.value]
  · rw [Trie.put, Trie.nodeAt, Trie.childrenAt, Trie.nodeAt]
    cases hr : t.root with
    | none =>
      rw [hr] at h
      simpa [emptyWalk_children] using h
    | some r => simp [hr] at h ⊢; rw [h]

/-! ## Claims about the buffer pool manager: C4, C8, C9, C10 -/

theorem setEvictable_isOk (s : RepState) (fid : Int) (b : Bool)
    (h : fid < (s.replacer_size : Int)) : ∃ s2, s.SetEvictable fid b = .ok s2 := by
  rw [RepState.SetEvictable, if_neg (by simpa using h)]
  cases alFind s.node_store fid with
  | none => exact ⟨s, rfl⟩
  | some node =>
    dsimp only
    by_cases h2 : node.is_evictable = b
    · rw [if_pos h2]; exact ⟨s, rfl⟩
    · rw [if_neg h2]; exact ⟨_, rfl⟩

/-- What the common tail of `getNewFrame` does to the fields the claims
observe: it performs no disk traffic and installs the (possibly freshly
allocated) page id in the page table. -/
theorem finishNewFrame_spec (s : BPM) (fid pid : Int) (is_new : Bool)
    (r : Option (Int × Int)) (s2 : BPM)
    (h : s.finishNewFrame fid pid is_new = some (r, s2)) :
    s2.disk = s.disk ∧ s2.log = s.log ∧
    ∃ pid2, r = some (pid2, fid) ∧ s2.page_table = alSet s.page_table pid2 fid ∧
      (is_new = false → pid2 = pid) := by
  rw [BPM.finishNewFrame] at h
  cases is_new <;>
    simp only [Bool.false_eq_true, Bool.true_eq_false, if_false, if_true] at h
  all_goals
    split at h
    case h_1 => exact absurd h (by simp)
    case h_2 =>
      split at h
      case h_1 => exact absurd h (by simp)
      case h_2 =>
        rw [Option.some.injEq, Prod.mk.injEq] at h
        obtain ⟨hr, hs2⟩ := h
        subst hs2
        exact ⟨rfl, rfl, _, hr.symm, rfl,
          fun hco => by first | rfl | exact Bool.noConfusion hco⟩

/-- C4: on the victim-acquisition path (free list empty, replacer
evicts frame `fid`) with a dirty victim, the victim's bytes are written
to its old page id on disk before the frame is reused — the write is
the one disk event of `getNewFrame` and the resulting disk image holds
the old bytes — and the old page-table mapping is erased (the old page
id resolves to nothing unless the new page id equals it). -/
theorem c4_dirty_victim_writeback (s : BPM) (pid : Int) (is_new : Bool)
    (fid : Int) (rep1 : RepState) (r : Option (Int × Int)) (s2 : BPM)
    (hfree : s.free_list = [])
    (hev : s.replacer.Evict = some (fid, rep1))
    (hdirty : (s.pages fid).is_dirty = true)
    (hrun : s.getNewFrame pid is_new = some (r, s2)) :
    s2.disk ((s.pages fid).page_id) = (s.pages fid).data ∧
    s2.log = s.log ++ [DiskOp.write ((s.pages fid).page_id) ((s.pages fid).data)] ∧
    (∀ p f, r = some (p, f) → p ≠ (s.pages fid).page_id →
      alFind s2.page_table ((s.pages fid).page_id) = none) := by
  rw [BPM.getNewFrame, hfree] at hrun
  rw [hev] at hrun
  simp only [BPM.writePage, hdirty, if_true] at hrun
  obtain ⟨hdisk, hlog, pid2, hr, htab, _⟩ := finishNewFrame_spec _ _ _ _ _ _ hrun
  refine ⟨?_, ?_, ?_⟩
  · rw [hdisk]; simp
  · rw [hlog]
  · intro p f hpf hne
    rw [hr] at hpf
    obtain ⟨hp, _⟩ := Prod.mk.injEq .. ▸ (Option.some.injEq .. ▸ hpf)
    have hnp : (s.pages fid).page_id ≠ pid2 := by
      intro hc
      rw [hp] at hc
      exact hne hc.symm
    rw [htab, alFind_alSet_ne _ _ _ _ hnp]
    exact alFind_alErase_self _ _

/-- C8: `unpin_page` fails exactly on a non-resident page or a zero pin
count, leaving the state unchanged; otherwise it ORs `is_dirty` into
the frame's dirty flag (so the flag never drops through unpin),
decrements the pin count, and switches the replacer to
`SetEvictable(fid, true)` exactly when the count reaches zero. -/
theorem c8_unpin_page (s : BPM) (pid : Int) (d : Bool) :
    (alFind s.page_table pid = none → s.UnpinPage pid d = some (false, s)) ∧
    (∀ fid, alFind s.page_table pid = some fid → (s.pages fid).pin_count = 0 →
      s.UnpinPage pid d = some (false, s)) ∧
    (∀ fid, alFind s.page_table pid = some fid → 0 < (s.pages fid).pin_count →
      fid < (s.replacer.replacer_size : Int) →
      ∃ rep1, s.replacer.SetEvictable fid true = .ok rep1 ∧
        s.UnpinPage pid d = some (true,
          { s with
              pages := setFrame s.pages fid
                (Page.mk (s.pages fid).page_id ((s.pages fid).pin_count - 1)
                  (d || (s.pages fid).is_dirty) (s.pages fid).data),
              replacer := if (s.pages fid).pin_count - 1 = 0 then rep1
                          else s.replacer })) := by
  refine ⟨?_, ?_, ?_⟩
  · intro h; rw [BPM.UnpinPage, h]
  · intro fid h hp; rw [BPM.UnpinPage, h]; simp [hp]
  · intro fid h hp hfid
    obtain ⟨rep1, hse⟩ := setEvictable_isOk s.replacer fid true hfid
    refine ⟨rep1, hse, ?_⟩
    rw [BPM.UnpinPage, h]
    simp only [if_neg (Nat.pos_iff_ne_zero.mp hp)]
    by_cases hz : (s.pages fid).pin_count - 1 = 0
    · simp only [hz, if_pos rfl, if_true]
      rw [hse]
    · simp only [hz, if_neg hz, if_false]

/-- C9: when `new_page` fails (free list empty and no evictable frame)
it returns null and the manager state — page-id counter, page table,
free list, frames, replacer, disk, log — is exactly the input state. -/
theorem c9_newpage_failure_unchanged (s : BPM)
    (hfree : s.free_list = []) (hev : s.replacer.Evict = none) :
    s.NewPage = some (none, s) := by
  rw [BPM.NewPage, BPM.getNewFrame, hfree, hev]

/-- C10: `delete_page` on a resident, unpinned, dirty page succeeds and
discards the bytes without disk writeback: the frame leaves the
replacer and the page table, is reset and appended to the free list,
the disk image is untouched, and the only disk event is the deallocate
notification — never a `write_page`. -/
theorem c10_delete_discards_dirty (s : BPM) (pid fid : Int) (rep1 : RepState)
    (hres : alFind s.page_table pid = some fid)
    (hpin : (s.pages fid).pin_count = 0)
    (_hdirty : (s.pages fid).is_dirty = true)
    (hrem : s.replacer.Remove fid = .ok rep1) :
    s.DeletePage pid = some (true,
      { s with replacer := rep1,
               page_table := alErase s.page_table pid,
               pages := setFrame s.pages fid Page.reset,
               free_list := s.free_list ++ [fid],
               log := s.log ++ [DiskOp.dealloc pid] }) := by
  rw [BPM.DeletePage, hres]
  simp only [hpin, Nat.lt_irrefl, if_false]
  rw [hrem]

theorem c4_dirty_victim_writeback_witness :
    ((bpmW.getNewFrame 0 true).map (fun rs => rs.2.disk 7)).getD 0 = 42 ∧
    ((bpmW.getNewFrame 0 true).map (fun rs => rs.2.log)).getD [] = [DiskOp.write 7 42] ∧
    ((bpmW.getNewFrame 0 true).map (fun rs => alFind rs.2.page_table 7)).getD none = none := by
  obtain ⟨s2, hrun⟩ : ∃ s2, bpmW.getNewFrame 0 true = some (some (8, 0), s2) := ⟨_, rfl⟩
  obtain ⟨hdisk, hlog, htab⟩ :=
    c4_dirty_victim_writeback bpmW 0 true 0 repW1 (some (8, 0)) s2
      rfl (by decide) rfl hrun
  rw [hrun]
  refine ⟨?_, ?_, ?_⟩
  · simpa using hdisk
  · simpa using hlog
  · simpa using htab 8 0 rfl (by decide)

theorem c8_unpin_page_witness :
    ∃ rep1, bpmW8.replacer.SetEvictable 0 true = .ok rep1 ∧
      bpmW8.UnpinPage 5 true = some (true,
        { bpmW8 with
            pages := setFrame bpmW8.pages 0
              (Page.mk (bpmW8.pages 0).page_id ((bpmW8.pages 0).pin_count - 1)
                (true || (bpmW8.pages 0).is_dirty) (bpmW8.pages 0).data),
            replacer := if (bpmW8.pages 0).pin_count - 1 = 0 then rep1
                        else bpmW8.replacer }) :=
  (c8_unpin_page bpmW8 5 true).2.2 0 (by decide) (by decide) (by decide)

theorem c9_newpage_failure_unchanged_witness :
    bpmW9.NewPage = some (none, bpmW9) :=
  c9_newpage_failure_unchanged bpmW9 rfl rfl

theorem c10_delete_discards_dirty_witness :
    bpmW10.DeletePage 5 = some (true,
      { bpmW10 with replacer := repW1,
                    page_table := alErase bpmW10.page_table 5,
                    pages := setFrame bpmW10.pages 0 Page.reset,
                    free_list := bpmW10.free_list ++ [0],
                    log := bpmW10.log ++ [DiskOp.dealloc 5] }) :=
  c10_delete_discards_dirty bpmW10 5 0 repW1 (by decide) (by decide) (by decide) (by decide)

/-! ## Reachable-state invariant of the replacer, for C6 -/

theorem alFind_none_not_mem {κ α : Type} [DecidableEq κ] (m : List (κ × α)) (key : κ)
    (h : alFind m key = none) : key ∉ m.map Prod.fst := by
  induction m with
  | nil => simp
  | cons p rest ih =>
    rw [alFind] at h
    by_cases hp : p.1 = key
    · simp [hp] at h
    · simp only [hp, if_false] at h
      simp only [List.map_cons, List.mem_cons]
      rintro (hc | hc)
      · exact hp hc.symm
      · exact ih h hc

theorem alFind_some_mem {κ α : Type} [DecidableEq κ] (m : List (κ × α)) (key : κ) (v : α)
    (h : alFind m key = some v) : key ∈ m.map Prod.fst := by
  induction m with
  | nil => simp [alFind] at h
  | cons p rest ih =>
    rw [alFind] at h
    by_cases hp : p.1 = key
    · simp [hp]
    · simp only [hp, if_false] at h
      simp [ih h]

theorem alSet_keys_none {κ α : Type} [DecidableEq κ] (m : List (κ × α)) (key : κ) (v : α)
    (h : alFind m key = none) : (alSet m key v).map Prod.fst = m.map Prod.fst ++ [key] := by
  induction m with
  | nil => simp [alSet]
  | cons p rest ih =>
    rw [alFind] at h
    by_cases hp : p.1 = key
    · simp [hp] at h
    · simp only [hp, if_false] at h
      simp [alSet, hp, ih h]

theorem alSet_keys_some {κ α : Type} [DecidableEq κ] (m : List (κ × α)) (key : κ) (v w : α)
    (h : alFind m key = some w) : (alSet m key v).map Prod.fst = m.map Prod.fst := by
  induction m with
  | nil => simp [alFind] at h
  | cons p rest ih =>
    rw [alFind] at h
    by_cases hp : p.1 = key
    · simp [alSet, hp]
    · simp only [hp, if_false] at h
      simp [alSet, hp, ih h]

theorem alErase_sublist {κ α : Type} [DecidableEq κ] (m : List (κ × α)) (key : κ) :
    (alErase m key).Sublist m := by
  induction m with
  | nil => simp [alErase]
  | cons p rest ih =>
    rw [alErase]
    by_cases hp : p.1 = key
    · simp only [hp, if_true]
      exact ih.cons p
    · simp only [hp, if_false]
      exact ih.cons₂ p

theorem alErase_length {κ α : Type} [DecidableEq κ] (m : List (κ × α)) (key : κ) (w : α)
    (hn : (m.map Prod.fst).Nodup) (h : alFind m key = some w) :
    (alErase m key).length + 1 = m.length := by
  induction m with
  | nil => simp [alFind] at h
  | cons p rest ih =>
    rw [alFind] at h
    rw [List.map_cons, List.nodup_cons] at hn
    by_cases hp : p.1 = key
    · rw [alErase]
      simp only [hp, if_true]
      have hrest : alFind rest key = none := by
        cases h2 : alFind rest key with
        | none => rfl
        | some u => exact absurd (hp ▸ alFind_some_mem rest key u h2) hn.1
      have : alErase rest key = rest := by
        clear ih h hn
        induction rest with
        | nil => rfl
        | cons q tail ih2 =>
          rw [alFind] at hrest
          by_cases hq : q.1 = key
          · simp [hq] at hrest
          · simp only [hq, if_false] at hrest
            rw [alErase]
            simp [hq, ih2 hrest]
      simp [this]
    · simp only [hp, if_false] at h
      rw [alErase]
      simp only [hp, if_false, List.length_cons]
      rw [← ih hn.2 h]

theorem evCount_cons (p : Int × LRUKNode) (rest : List (Int × LRUKNode)) :
    evCount (p :: rest) = (if p.2.evictable then 1 else 0) + evCount rest := by
  by_cases h : p.2.evictable <;> simp [evCount, List.filter_cons, h, Nat.add_comm]

theorem evCount_alSet_none (m : List (Int × LRUKNode)) (key : Int) (v : LRUKNode)
    (h : alFind m key = none) :
    evCount (alSet m key v) = evCount m + (if v.evictable then 1 else 0) := by
  induction m with
  | nil => simp [alSet, evCount, List.filter]; by_cases hv : v.evictable <;> simp [hv]
  | cons p rest ih =>
    rw [alFind] at h
    by_cases hp : p.1 = key
    · simp [hp] at h
    · simp only [hp, if_false] at h
      rw [alSet]
      simp only [hp, if_false]
      rw [evCount_cons, evCount_cons, ih h, Nat.add_assoc]

theorem evCount_alSet_some (m : List (Int × LRUKNode)) (key : Int) (v w : LRUKNode)
    (h : alFind m key = some w) :
    evCount (alSet m key v) + (if w.evictable then 1 else 0)
      = evCount m + (if v.evictable then 1 else 0) := by
  induction m with
  | nil => simp [alFind] at h
  | cons p rest ih =>
    rw [alFind] at h
    by_cases hp : p.1 = key
    · simp only [hp, if_true, Option.some.injEq] at h
      rw [alSet]
      simp only [hp, if_true]
      rw [evCount_cons, evCount_cons, h]
      dsimp only
      omega
    · simp only [hp, if_false] at h
      rw [alSet]
      simp only [hp, if_false]
      rw [evCount_cons, evCount_cons]
      have := ih h
      omega

theorem evCount_alErase (m : List (Int × LRUKNode)) (key : Int) (w : LRUKNode)
    (hn : (m.map Prod.fst).Nodup) (h : alFind m key = some w) :
    evCount (alErase m key) + (if w.evictable then 1 else 0) = evCount m := by
  induction m with
  | nil => simp [alFind] at h
  | cons p rest ih =>
    rw [alFind] at h
    rw [List.map_cons, List.nodup_cons] at hn
    by_cases hp : p.1 = key
    · rw [alErase]
      simp only [hp, if_true]
      have hrest : alFind rest key = none := by
        cases h2 : alFind rest key with
        | none => rfl
        | some u => exact absurd (hp ▸ alFind_some_mem rest key u h2) hn.1
      have heq : alErase rest key = rest := by
        clear ih h hn
        induction rest with
        | nil => rfl
        | cons q tail ih2 =>
          rw [alFind] at hrest
          by_cases hq : q.1 = key
          · simp [hq] at hrest
          · simp only [hq, if_false] at hrest
            rw [alErase]
            simp [hq, ih2 hrest]
      simp only [hp, if_true, Option.some.injEq] at h
      rw [heq, evCount_cons, h]
      omega
    · simp only [hp, if_false] at h
      rw [alErase]
      simp only [hp, if_false]
      rw [evCount_cons, evCount_cons]
      have := ih hn.2 h
      omega

theorem mem_filter_ne {l : List Int} {f fid : Int} :
    f ∈ l.filter (fun x => !(x = fid : Bool)) ↔ f ∈ l ∧ ¬ f = fid := by
  simp [List.mem_filter]

theorem repWF_init (nf k : Nat) (hk : 1 ≤ k) : RepWF (RepState.init nf k) := by
  refine ⟨hk, ?_, ?_, ?_, ?_, ?_, ?_⟩ <;> simp [RepState.init, alFind, evCount]

theorem evictablePred_true {store : List (Int × LRUKNode)} {fid : Int}
    (h : evictablePred store fid = true) :
    ∃ node, alFind store fid = some node ∧ node.evictable = true := by
  rw [evictablePred] at h
  cases h2 : alFind store fid with
  | none => rw [h2] at h; simp at h
  | some nd =>
    rw [h2] at h
    simp [LRUKNode.is_evictable] at h
    exact ⟨nd, rfl, h⟩

theorem add_timestamp_history_lt (node : LRUKNode) (ts : Nat)
    (h : node.history.length < node.k) :
    (node.add_timestamp ts).history = node.history ++ [ts] := by
  rw [LRUKNode.add_timestamp]
  simp only [List.length_append, List.length_singleton]
  rw [if_neg (by omega)]

theorem add_timestamp_len_ge (node : LRUKNode) (ts : Nat)
    (h : node.k ≤ node.history.length) :
    (node.add_timestamp ts).history.length = node.history.length := by
  rw [LRUKNode.add_timestamp]
  simp only [List.length_append, List.length_singleton]
  rw [if_pos (by omega)]
  simp [List.length_tail]

theorem recordAccess_wf (s : RepState) (fid : Int) (s2 : RepState)
    (hwf : RepWF s) (h : s.RecordAccess fid = .ok s2) : RepWF s2 := by
  rw [RepState.RecordAccess] at h
  by_cases hlt : ¬ fid < (s.replacer_size : Int)
  · rw [if_pos hlt] at h
    exact absurd h (by simp)
  rw [if_neg hlt] at h
  cases hfind : alFind s.node_store fid with
  | none =>
    rw [hfind] at h
    rw [Except.ok.injEq] at h
    subst h
    have hnhist :
        (LRUKNode.add_timestamp
          { fid := fid, k := s.k, history := [], evictable := false }
          (s.current_timestamp + 1)).history = [s.current_timestamp + 1] := by
      rw [LRUKNode.add_timestamp]
      simp only [List.nil_append, List.length_singleton]
      rw [if_neg (by have := hwf.k_pos; omega)]
    refine ⟨hwf.k_pos, ?_, ?_, ?_, ?_, ?_, ?_⟩ <;> dsimp only
    · rw [alSet_keys_none _ _ _ hfind]
      exact hwf.nodup.append (List.nodup_singleton fid)
        (by simp [alFind_none_not_mem _ _ hfind])
    · intro f nd hf
      by_cases hff : f = fid
      · subst hff
        rw [alFind_alSet_self] at hf
        injection hf with hf2
        subst hf2
        rw [hnhist]
        simp
      · rw [alFind_alSet_ne _ _ _ _ hff] at hf
        exact hwf.hist_len f nd hf
    · intro f nd hf
      by_cases hff : f = fid
      · subst hff
        rw [alFind_alSet_self] at hf
        injection hf with hf2
        subst hf2
        rfl
      · rw [alFind_alSet_ne _ _ _ _ hff] at hf
        exact hwf.node_k f nd hf
    · have hlen : (alSet s.node_store fid
          (LRUKNode.add_timestamp
            { fid := fid, k := s.k, history := [], evictable := false }
            (s.current_timestamp + 1))).length = s.node_store.length + 1 := by
        have h2 := congrArg List.length (alSet_keys_none s.node_store fid
          (LRUKNode.add_timestamp
            { fid := fid, k := s.k, history := [], evictable := false }
            (s.current_timestamp + 1)) hfind)
        simpa using h2
      rw [hlen, evCount_alSet_none _ _ _ hfind]
      have h3 := hwf.size_le
      have hev0 : (LRUKNode.add_timestamp
          { fid := fid, k := s.k, history := [], evictable := false }
          (s.current_timestamp + 1)).evictable = false := rfl
      rw [hev0]
      simp only [Bool.false_eq_true, if_false]
      omega
    · intro h2k f hmem
      rcases List.mem_cons.mp hmem with hff | hmem2
      · subst hff
        exact ⟨_, alFind_alSet_self .., by rw [hnhist]; simpa using h2k⟩
      · obtain ⟨nd, hf, hl⟩ := hwf.less_sub h2k f hmem2
        have hff : f ≠ fid := by
          intro hc
          rw [hc, hfind] at hf
          exact Option.noConfusion hf
        exact ⟨nd, by rw [alFind_alSet_ne _ _ _ _ hff]; exact hf, hl⟩
    · intro h2k f nd hf hl
      by_cases hff : f = fid
      · subst hff
        exact List.mem_cons_self ..
      · rw [alFind_alSet_ne _ _ _ _ hff] at hf
        exact List.mem_cons_of_mem _ (hwf.sub_less h2k f nd hf hl)
  | some node =>
    rw [hfind] at h
    dsimp only at h
    have hkk : node.k = s.k := hwf.node_k fid node hfind
    by_cases hcnt : node.get_access_count < s.k
    · have hhist : (node.add_timestamp (s.current_timestamp + 1)).history
          = node.history ++ [s.current_timestamp + 1] :=
        add_timestamp_history_lt node _ (by rw [hkk]; exact hcnt)
      have hlen2 : (node.add_timestamp (s.current_timestamp + 1)).history.length
          = node.history.length + 1 := by rw [hhist]; simp
      rw [if_pos hcnt] at h
      by_cases htr : (node.add_timestamp (s.current_timestamp + 1)).get_access_count = s.k
      · rw [if_pos htr] at h
        rw [Except.ok.injEq] at h
        subst h
        refine ⟨hwf.k_pos, ?_, ?_, ?_, ?_, ?_, ?_⟩ <;> dsimp only
        · rw [alSet_keys_some _ _ _ _ hfind]
          exact hwf.nodup
        · intro f nd hf
          by_cases hff : f = fid
          · subst hff
            rw [alFind_alSet_self] at hf
            injection hf with hf2
            subst hf2
            rw [hlen2]
            omega
          · rw [alFind_alSet_ne _ _ _ _ hff] at hf
            exact hwf.hist_len f nd hf
        · intro f nd hf
          by_cases hff : f = fid
          · subst hff
            rw [alFind_alSet_self] at hf
            injection hf with hf2
            subst hf2
            exact hkk
          · rw [alFind_alSet_ne _ _ _ _ hff] at hf
            exact hwf.node_k f nd hf
        · have hlen : (alSet s.node_store fid
              (node.add_timestamp (s.current_timestamp + 1))).length
              = s.node_store.length := by
            have h2 := congrArg List.length (alSet_keys_some s.node_store fid
              (node.add_timestamp (s.current_timestamp + 1)) node hfind)
            simpa using h2
          have hev := evCount_alSet_some s.node_store fid
            (node.add_timestamp (s.current_timestamp + 1)) node hfind
          have h3 := hwf.size_le
          rw [hlen]
          have hsame : (node.add_timestamp (s.current_timestamp + 1)).evictable
              = node.evictable := rfl
          rw [hsame] at hev
          omega
        · intro h2k f hmem
          rw [mem_filter_ne] at hmem
          obtain ⟨nd, hf, hl⟩ := hwf.less_sub h2k f hmem.1
          exact ⟨nd, by rw [alFind_alSet_ne _ _ _ _ hmem.2]; exact hf, hl⟩
        · intro h2k f nd hf hl
          by_cases hff : f = fid
          · subst hff
            rw [alFind_alSet_self] at hf
            injection hf with hf2
            subst hf2
            rw [LRUKNode.get_access_count] at htr
            omega
          · rw [alFind_alSet_ne _ _ _ _ hff] at hf
            rw [mem_filter_ne]
            exact ⟨hwf.sub_less h2k f nd hf hl, hff⟩
      · rw [if_neg htr] at h
        rw [Except.ok.injEq] at h
        subst h
        refine ⟨hwf.k_pos, ?_, ?_, ?_, ?_, ?_, ?_⟩ <;> dsimp only
        · rw [alSet_keys_some _ _ _ _ hfind]
          exact hwf.nodup
        · intro f nd hf
          by_cases hff : f = fid
          · subst hff
            rw [alFind_alSet_self] at hf
            injection hf with hf2
            subst hf2
            rw [hlen2]
            omega
          · rw [alFind_alSet_ne _ _ _ _ hff] at hf
            exact hwf.hist_len f nd hf
        · intro f nd hf
          by_cases hff : f = fid
          · subst hff
            rw [alFind_alSet_self] at hf
            injection hf with hf2
            subst hf2
            exact hkk
          · rw [alFind_alSet_ne _ _ _ _ hff] at hf
            exact hwf.node_k f nd hf
        · have hlen : (alSet s.node_store fid
              (node.add_timestamp (s.current_timestamp + 1))).length
              = s.node_store.length := by
            have h2 := congrArg List.length (alSet_keys_some s.node_store fid
              (node.add_timestamp (s.current_timestamp + 1)) node hfind)
            simpa using h2
          have hev := evCount_alSet_some s.node_store fid
            (node.add_timestamp (s.current_timestamp + 1)) node hfind
          have h3 := hwf.size_le
          rw [hlen]
          have hsame : (node.add_timestamp (s.current_timestamp + 1)).evictable
              = node.evictable := rfl
          rw [hsame] at hev
          omega
        · intro h2k f hmem
          rcases List.mem_cons.mp hmem with hff | hmem2
          · subst hff
            refine ⟨_, alFind_alSet_self .., ?_⟩
            rw [LRUKNode.get_access_count] at htr hcnt
            omega
          · rw [mem_filter_ne] at hmem2
            obtain ⟨nd, hf, hl⟩ := hwf.less_sub h2k f hmem2.1
            exact ⟨nd, by rw [alFind_alSet_ne _ _ _ _ hmem2.2]; exact hf, hl⟩
        · intro h2k f nd hf hl
          by_cases hff : f = fid
          · subst hff
            exact List.mem_cons_self ..
          · rw [alFind_alSet_ne _ _ _ _ hff] at hf
            refine List.mem_cons_of_mem _ ?_
            rw [mem_filter_ne]
            exact ⟨hwf.sub_less h2k f nd hf hl, hff⟩
    · have hlen2 : (node.add_timestamp (s.current_timestamp + 1)).history.length
          = node.history.length :=
        add_timestamp_len_ge node _ (by rw [hkk]; exact Nat.not_lt.mp hcnt)
      rw [if_neg hcnt] at h
      rw [Except.ok.injEq] at h
      subst h
      refine ⟨hwf.k_pos, ?_, ?_, ?_, ?_, ?_, ?_⟩ <;> dsimp only
      · rw [alSet_keys_some _ _ _ _ hfind]
        exact hwf.nodup
      · intro f nd hf
        by_cases hff : f = fid
        · subst hff
          rw [alFind_alSet_self] at hf
          injection hf with hf2
          subst hf2
          rw [hlen2]
          exact hwf.hist_len _ node hfind
        · rw [alFind_alSet_ne _ _ _ _ hff] at hf
          exact hwf.hist_len f nd hf
      · intro f nd hf
        by_cases hff : f = fid
        · subst hff
          rw [alFind_alSet_self] at hf
          injection hf with hf2
          subst hf2
          exact hkk
        · rw [alFind_alSet_ne _ _ _ _ hff] at hf
          exact hwf.node_k f nd hf
      · have hlen : (alSet s.node_store fid
            (node.add_timestamp (s.current_timestamp + 1))).length
            = s.node_store.length := by
          have h2 := congrArg List.length (alSet_keys_some s.node_store fid
            (node.add_timestamp (s.current_timestamp + 1)) node hfind)
          simpa using h2
        have hev := evCount_alSet_some s.node_store fid
          (node.add_timestamp (s.current_timestamp + 1)) node hfind
        have h3 := hwf.size_le
        rw [hlen]
        have hsame : (node.add_timestamp (s.current_timestamp + 1)).evictable
            = node.evictable := rfl
        rw [hsame] at hev
        omega
      · intro h2k f hmem
        obtain ⟨nd, hf, hl⟩ := hwf.less_sub h2k f hmem
        have hff : f ≠ fid := by
          intro hc
          rw [hc, hfind, Option.some.injEq] at hf
          rw [LRUKNode.get_access_count] at hcnt
          rw [← hf] at hl
          exact hcnt hl
        exact ⟨nd, by rw [alFind_alSet_ne _ _ _ _ hff]; exact hf, hl⟩
      · intro h2k f nd hf hl
        by_cases hff : f = fid
        · subst hff
          rw [alFind_alSet_self] at hf
          injection hf with hf2
          subst hf2
          rw [hlen2] at hl
          rw [LRUKNode.get_access_count] at hcnt
          omega
        · rw [alFind_alSet_ne _ _ _ _ hff] at hf
          exact hwf.sub_less h2k f nd hf hl

theorem setEvictable_wf (s : RepState) (fid : Int) (b : Bool) (s2 : RepState)
    (hwf : RepWF s) (h : s.SetEvictable fid b = .ok s2) : RepWF s2 := by
  rw [RepState.SetEvictable] at h
  by_cases hlt : ¬ fid < (s.replacer_size : Int)
  · rw [if_pos hlt] at h
    exact absurd h (by simp)
  rw [if_neg hlt] at h
  cases hfind : alFind s.node_store fid with
  | none =>
    rw [hfind] at h
    dsimp only at h
    rw [Except.ok.injEq] at h
    subst h
    exact hwf
  | some node =>
    rw [hfind] at h
    dsimp only at h
    by_cases hsame : node.is_evictable = b
    · rw [if_pos hsame, Except.ok.injEq] at h
      subst h
      exact hwf
    · rw [if_neg hsame, Except.ok.injEq] at h
      subst h
      refine ⟨hwf.k_pos, ?_, ?_, ?_, ?_, ?_, ?_⟩ <;> dsimp only
      · rw [alSet_keys_some _ _ _ _ hfind]
        exact hwf.nodup
      · intro f nd hf
        by_cases hff : f = fid
        · subst hff
          rw [alFind_alSet_self] at hf
          injection hf with hf2
          subst hf2
          exact hwf.hist_len _ node hfind
        · rw [alFind_alSet_ne _ _ _ _ hff] at hf
          exact hwf.hist_len f nd hf
      · intro f nd hf
        by_cases hff : f = fid
        · subst hff
          rw [alFind_alSet_self] at hf
          injection hf with hf2
          subst hf2
          exact hwf.node_k _ node hfind
        · rw [alFind_alSet_ne _ _ _ _ hff] at hf
          exact hwf.node_k f nd hf
      · have hlen : (alSet s.node_store fid { node with evictable := b }).length
            = s.node_store.length := by
          have h2 := congrArg List.length
            (alSet_keys_some s.node_store fid { node with evictable := b } node hfind)
          simpa using h2
        have hev := evCount_alSet_some s.node_store fid
          { node with evictable := b } node hfind
        have hvb : ({ node with evictable := b } : LRUKNode).evictable = b := rfl
        rw [hvb] at hev
        have h3 := hwf.size_le
        rw [hlen]
        cases b with
        | true =>
          have hnev : node.evictable = false := by
            cases hb2 : node.evictable with
            | false => rfl
            | true => exact absurd (by rw [LRUKNode.is_evictable]; exact hb2) hsame
          rw [hnev] at hev
          simp only [Bool.false_eq_true, if_false, if_true] at hev ⊢
          omega
        | false =>
          have hnev : node.evictable = true := by
            cases hb2 : node.evictable with
            | true => rfl
            | false => exact absurd (by rw [LRUKNode.is_evictable]; exact hb2) hsame
          rw [hnev] at hev
          simp only [Bool.false_eq_true, if_false, if_true] at hev ⊢
          omega
      · intro h2k f hmem
        obtain ⟨nd, hf, hl⟩ := hwf.less_sub h2k f hmem
        by_cases hff : f = fid
        · subst hff
          rw [hfind, Option.some.injEq] at hf
          subst hf
          exact ⟨{ node with evictable := b }, alFind_alSet_self .., hl⟩
        · exact ⟨nd, by rw [alFind_alSet_ne _ _ _ _ hff]; exact hf, hl⟩
      · intro h2k f nd hf hl
        by_cases hff : f = fid
        · subst hff
          rw [alFind_alSet_self] at hf
          injection hf with hf2
          subst hf2
          exact hwf.sub_less h2k _ node hfind hl
        · rw [alFind_alSet_ne _ _ _ _ hff] at hf
          exact hwf.sub_less h2k f nd hf hl

theorem remove_wf (s : RepState) (fid : Int) (s2 : RepState)
    (hwf : RepWF s) (h : s.Remove fid = .ok s2) : RepWF s2 := by
  rw [RepState.Remove] at h
  by_cases hlt : ¬ fid < (s.replacer_size : Int)
  · rw [if_pos hlt] at h
    exact absurd h (by simp)
  rw [if_neg hlt] at h
  cases hfind : alFind s.node_store fid with
  | none =>
    rw [hfind] at h
    dsimp only at h
    rw [Except.ok.injEq] at h
    subst h
    exact hwf
  | some node =>
    rw [hfind] at h
    dsimp only at h
    by_cases hevb : ¬ node.is_evictable
    · rw [if_pos hevb] at h
      exact absurd h (by simp)
    rw [if_neg hevb] at h
    have hevt : node.evictable = true := not_not.mp hevb
    have hsz : s.node_store.length + evCount s.node_store ≤ s.curr_size := hwf.size_le
    have hl1 := alErase_length s.node_store fid node hwf.nodup hfind
    have he1 := evCount_alErase s.node_store fid node hwf.nodup hfind
    rw [hevt] at he1
    simp only [if_true] at he1
    by_cases hcnt : node.get_access_count < s.k
    · rw [if_pos hcnt, Except.ok.injEq] at h
      subst h
      refine ⟨hwf.k_pos, ?_, ?_, ?_, ?_, ?_, ?_⟩ <;> dsimp only
      · exact hwf.nodup.sublist (List.Sublist.map _ (alErase_sublist _ _))
      · intro f nd hf
        by_cases hff : f = fid
        · subst hff
          rw [alFind_alErase_self] at hf
          exact Option.noConfusion hf
        · rw [alFind_alErase_ne _ _ _ hff] at hf
          exact hwf.hist_len f nd hf
      · intro f nd hf
        by_cases hff : f = fid
        · subst hff
          rw [alFind_alErase_self] at hf
          exact Option.noConfusion hf
        · rw [alFind_alErase_ne _ _ _ hff] at hf
          exact hwf.node_k f nd hf
      · omega
      · intro h2k f hmem
        rw [mem_filter_ne] at hmem
        obtain ⟨nd, hf, hl⟩ := hwf.less_sub h2k f hmem.1
        exact ⟨nd, by rw [alFind_alErase_ne _ _ _ hmem.2]; exact hf, hl⟩
      · intro h2k f nd hf hl
        by_cases hff : f = fid
        · subst hff
          rw [alFind_alErase_self] at hf
          exact Option.noConfusion hf
        · rw [alFind_alErase_ne _ _ _ hff] at hf
          rw [mem_filter_ne]
          exact ⟨hwf.sub_less h2k f nd hf hl, hff⟩
    · rw [if_neg hcnt, Except.ok.injEq] at h
      subst h
      refine ⟨hwf.k_pos, ?_, ?_, ?_, ?_, ?_, ?_⟩ <;> dsimp only
      · exact hwf.nodup.sublist (List.Sublist.map _ (alErase_sublist _ _))
      · intro f nd hf
        by_cases hff : f = fid
        · subst hff
          rw [alFind_alErase_self] at hf
          exact Option.noConfusion hf
        · rw [alFind_alErase_ne _ _ _ hff] at hf
          exact hwf.hist_len f nd hf
      · intro f nd hf
        by_cases hff : f = fid
        · subst hff
          rw [alFind_alErase_self] at hf
          exact Option.noConfusion hf
        · rw [alFind_alErase_ne _ _ _ hff] at hf
          exact hwf.node_k f nd hf
      · omega
      · intro h2k f hmem
        obtain ⟨nd, hf, hl⟩ := hwf.less_sub h2k f hmem
        have hff : f ≠ fid := by
          intro hc
          rw [hc, hfind, Option.some.injEq] at hf
          rw [LRUKNode.get_access_count] at hcnt
          rw [← hf] at hl
          exact hcnt hl
        exact ⟨nd, by rw [alFind_alErase_ne _ _ _ hff]; exact hf, hl⟩
      · intro h2k f nd hf hl
        by_cases hff : f = fid
        · subst hff
          rw [alFind_alErase_self] at hf
          exact Option.noConfusion hf
        · rw [alFind_alErase_ne _ _ _ hff] at hf
          exact hwf.sub_less h2k f nd hf hl

theorem evict_wf (s : RepState) (fid2 : Int) (s2 : RepState)
    (hwf : RepWF s) (h : s.Evict = some (fid2, s2)) : RepWF s2 := by
  rw [RepState.Evict] at h
  by_cases hz : s.curr_size = 0
  · rw [if_pos hz] at h
    exact absurd h (by simp)
  rw [if_neg hz] at h
  cases hfe : findEvictable s.node_store s.less_k_list with
  | some fidl =>
    rw [hfe] at h
    dsimp only at h
    rw [Option.some.injEq, Prod.mk.injEq] at h
    obtain ⟨hfid, hs2⟩ := h
    subst hfid
    subst hs2
    obtain ⟨nodeX, hfx, hevx⟩ := evictablePred_true (List.find?_some hfe)
    have hl1 := alErase_length s.node_store fidl nodeX hwf.nodup hfx
    have he1 := evCount_alErase s.node_store fidl nodeX hwf.nodup hfx
    rw [hevx] at he1
    simp only [if_true] at he1
    have hsz := hwf.size_le
    refine ⟨hwf.k_pos, ?_, ?_, ?_, ?_, ?_, ?_⟩ <;> dsimp only
    · exact hwf.nodup.sublist (List.Sublist.map _ (alErase_sublist _ _))
    · intro f nd hf
      by_cases hff : f = fidl
      · subst hff
        rw [alFind_alErase_self] at hf
        exact Option.noConfusion hf
      · rw [alFind_alErase_ne _ _ _ hff] at hf
        exact hwf.hist_len f nd hf
    · intro f nd hf
      by_cases hff : f = fidl
      · subst hff
        rw [alFind_alErase_self] at hf
        exact Option.noConfusion hf
      · rw [alFind_alErase_ne _ _ _ hff] at hf
        exact hwf.node_k f nd hf
    · omega
    · intro h2k f hmem
      rw [mem_filter_ne] at hmem
      obtain ⟨nd, hf, hl⟩ := hwf.less_sub h2k f hmem.1
      exact ⟨nd, by rw [alFind_alErase_ne _ _ _ hmem.2]; exact hf, hl⟩
    · intro h2k f nd hf hl
      by_cases hff : f = fidl
      · subst hff
        rw [alFind_alErase_self] at hf
        exact Option.noConfusion hf
      · rw [alFind_alErase_ne _ _ _ hff] at hf
        rw [mem_filter_ne]
        exact ⟨hwf.sub_less h2k f nd hf hl, hff⟩
  | none =>
    rw [hfe] at h
    dsimp only at h
    cases hfm : findEvictable s.node_store s.more_k_list with
    | none =>
      rw [hfm] at h
      exact absurd h (by simp)
    | some fidm =>
      rw [hfm] at h
      dsimp only at h
      rw [Option.some.injEq, Prod.mk.injEq] at h
      obtain ⟨hfid, hs2⟩ := h
      subst hfid
      subst hs2
      obtain ⟨nodeX, hfx, hevx⟩ := evictablePred_true (List.find?_some hfm)
      have hl1 := alErase_length s.node_store fidm nodeX hwf.nodup hfx
      have he1 := evCount_alErase s.node_store fidm nodeX hwf.nodup hfx
      rw [hevx] at he1
      simp only [if_true] at he1
      have hsz := hwf.size_le
      have hnotless : fidm ∉ s.less_k_list := by
        intro hmem
        rw [findEvictable, List.find?_eq_none] at hfe
        exact absurd (List.find?_some hfm)
          (by simpa using hfe fidm (List.mem_reverse.mpr hmem))
      refine ⟨hwf.k_pos, ?_, ?_, ?_, ?_, ?_, ?_⟩ <;> dsimp only
      · exact hwf.nodup.sublist (List.Sublist.map _ (alErase_sublist _ _))
      · intro f nd hf
        by_cases hff : f = fidm
        · subst hff
          rw [alFind_alErase_self] at hf
          exact Option.noConfusion hf
        · rw [alFind_alErase_ne _ _ _ hff] at hf
          exact hwf.hist_len f nd hf
      · intro f nd hf
        by_cases hff : f = fidm
        · subst hff
          rw [alFind_alErase_self] at hf
          exact Option.noConfusion hf
        · rw [alFind_alErase_ne _ _ _ hff] at hf
          exact hwf.node_k f nd hf
      · omega
      · intro h2k f hmem
        obtain ⟨nd, hf, hl⟩ := hwf.less_sub h2k f hmem
        have hff : f ≠ fidm := fun hc => hnotless (hc ▸ hmem)
        exact ⟨nd, by rw [alFind_alErase_ne _ _ _ hff]; exact hf, hl⟩
      · intro h2k f nd hf hl
        by_cases hff : f = fidm
        · subst hff
          rw [alFind_alErase_self] at hf
          exact Option.noConfusion hf
        · rw [alFind_alErase_ne _ _ _ hff] at hf
          exact hwf.sub_less h2k f nd hf hl

theorem applyRepOp_wf (s : RepState) (op : RepOp) (hwf : RepWF s) :
    RepWF (applyRepOp s op) := by
  cases op with
  | record fid =>
    rw [applyRepOp]
    cases h : s.RecordAccess fid with
    | error e => exact hwf
    | ok s2 => exact recordAccess_wf s fid s2 hwf h
  | setEvictable fid b =>
    rw [applyRepOp]
    cases h : s.SetEvictable fid b with
    | error e => exact hwf
    | ok s2 => exact setEvictable_wf s fid b s2 hwf h
  | remove fid =>
    rw [applyRepOp]
    cases h : s.Remove fid with
    | error e => exact hwf
    | ok s2 => exact remove_wf s fid s2 hwf h
  | evict =>
    rw [applyRepOp]
    cases h : s.Evict with
    | none => exact hwf
    | some p =>
      obtain ⟨fid2, s2⟩ := p
      exact evict_wf s fid2 s2 hwf h

theorem runRepOps_wf (ops : List RepOp) : ∀ s : RepState, RepWF s → RepWF (runRepOps s ops) := by
  induction ops with
  | nil => intro s h; exact h
  | cons op rest ih => intro s h; exact ih _ (applyRepOp_wf s op h)

/-- C6: after any operation sequence from a fresh replacer with K at
least 1, whenever some evictable tracked node has fewer than K recorded
accesses, `Evict` succeeds and the victim is itself an evictable node
with fewer than K recorded accesses — no full-K frame is returned while
an evictable sub-K frame exists, regardless of recency. -/
theorem c6_subk_priority (nf k : Nat) (ops : List RepOp) (hk : 1 ≤ k)
    (fid : Int) (node : LRUKNode)
    (hfind : alFind (runRepOps (RepState.init nf k) ops).node_store fid = some node)
    (hev : node.evictable = true)
    (hsub : node.history.length < (runRepOps (RepState.init nf k) ops).k) :
    ∃ fid2 s2 node2,
      (runRepOps (RepState.init nf k) ops).Evict = some (fid2, s2) ∧
      alFind (runRepOps (RepState.init nf k) ops).node_store fid2 = some node2 ∧
      node2.evictable = true ∧
      node2.history.length < (runRepOps (RepState.init nf k) ops).k := by
  set s := runRepOps (RepState.init nf k) ops with hs
  have hwf : RepWF s := runRepOps_wf ops _ (repWF_init nf k hk)
  have h2k : 2 ≤ s.k := by
    rcases Nat.lt_or_ge s.k 2 with hlt | hge
    · have h1 := hwf.hist_len fid node hfind
      have h2 := hwf.k_pos
      omega
    · exact hge
  have hmem : fid ∈ s.less_k_list := hwf.sub_less h2k fid node hfind hsub
  have hpred : evictablePred s.node_store fid = true := by
    rw [evictablePred, hfind]
    simp [LRUKNode.is_evictable, hev]
  obtain ⟨fid2, hfe⟩ :
      ∃ fid2, findEvictable s.node_store s.less_k_list = some fid2 := by
    rw [findEvictable]
    cases hfe2 : List.find? (evictablePred s.node_store) s.less_k_list.reverse with
    | some x => exact ⟨x, rfl⟩
    | none =>
      rw [List.find?_eq_none] at hfe2
      exact absurd hpred (by simpa using hfe2 fid (List.mem_reverse.mpr hmem))
  have hpred2 : evictablePred s.node_store fid2 = true := List.find?_some hfe
  have hmem2 : fid2 ∈ s.less_k_list :=
    List.mem_reverse.mp (List.mem_of_find?_eq_some hfe)
  obtain ⟨node2, hf2, hev2⟩ := evictablePred_true hpred2
  obtain ⟨node3, hf3, hl3⟩ := hwf.less_sub h2k fid2 hmem2
  have hnode : node2 = node3 := by
    rw [hf2, Option.some.injEq] at hf3
    exact hf3
  have hcz : ¬ s.curr_size = 0 := by
    have hle := hwf.size_le
    have hpos : 1 ≤ s.node_store.length := by
      cases hsl : s.node_store with
      | nil => rw [hsl, alFind] at hfind; exact Option.noConfusion hfind
      | cons a l => simp
    omega
  refine ⟨fid2,
    { s with less_k_list := s.less_k_list.filter (fun f => !(f = fid2 : Bool)),
             node_store := alErase s.node_store fid2,
             curr_size := s.curr_size - 1 },
    node2, ?_, hf2, hev2, ?_⟩
  · rw [RepState.Evict, if_neg hcz, hfe]
  · rw [hnode]
    exact hl3

theorem c6_subk_priority_witness :
    ∃ fid2 s2 node2,
      (runRepOps (RepState.init 2 2) opsC6).Evict = some (fid2, s2) ∧
      alFind (runRepOps (RepState.init 2 2) opsC6).node_store fid2 = some node2 ∧
      node2.evictable = true ∧
      node2.history.length < (runRepOps (RepState.init 2 2) opsC6).k :=
  c6_subk_priority 2 2 opsC6 (by decide) 0
    { fid := 0, k := 2, history := [1], evictable := true }
    (by decide) (by decide) (by decide)

end BusTub
